import Mathlib

/-!
# Verification of the rdbdump-server core (server.ts)

Shallow embedding of the key-range derivation, extraction fallback chain and
record decoding/aggregation pipeline of the Alkane storage dump server.

Modelling conventions:
* Byte buffers (Node `Buffer`) and JS strings are both modelled as `List Nat`
  (byte values / code units).  All keys and values handled by the server are
  ASCII, where the two views coincide.
* JS `bigint` and the decoded `block : Number` field are modelled as `Nat`
  (the revision numbers occurring in values are far below `2^53`, where
  `Number` arithmetic is exact).
* Fallible JS functions (`throw`) are modelled with `Except (List Nat)`,
  carrying the error message.
* Subprocess invocations are modelled by an oracle: the outcome of each call
  (`.ok stdout` for exit code 0, `.error msg` for spawn error, non-zero exit
  or timeout, which all reject the promise in `run` / `spawnCapture`).
-/

/-- Code units of a Lean string, for writing ASCII byte lists readably. -/
def asciiOf (s : String) : List Nat := s.data.map Char.toNat

instance exceptDecEq {ε α : Type} [DecidableEq ε] [DecidableEq α] :
    DecidableEq (Except ε α) := fun x y =>
  match x, y with
  | .ok a, .ok b =>
    if h : a = b then .isTrue (by rw [h])
    else .isFalse (by intro hc; cases hc; exact h rfl)
  | .ok _, .error _ => .isFalse (by intro hc; cases hc)
  | .error _, .ok _ => .isFalse (by intro hc; cases hc)
  | .error e, .error f =>
    if h : e = f then .isTrue (by rw [h])
    else .isFalse (by intro hc; cases hc; exact h rfl)

/-- JS `isPrint` / `isPrintable`: non-empty and every byte in `[0x20, 0x7f)`. -/
def isPrint (buf : List Nat) : Bool :=
  !buf.isEmpty && buf.all (fun b => decide (0x20 ≤ b ∧ b < 0x7f))

/-- Lowercase hex digit (as an ASCII code) of a value `< 16`. -/
def hexDigit (n : Nat) : Nat := if n < 10 then 48 + n else 87 + n

/-- JS `buf.toString("hex")`: two lowercase hex digits per byte. -/
def hexBody (buf : List Nat) : List Nat :=
  (buf.map (fun b => [hexDigit (b / 16), hexDigit (b % 16)])).flatten

/-- JS `toHex`: `"0x" + buf.toString("hex")`. -/
def toHexStr (buf : List Nat) : List Nat := 48 :: 120 :: hexBody buf

/-- The loop of `u128le`: `k` iterations, each emitting `x & 0xff` and then
shifting `x` right by 8 bits. -/
def leBytes : Nat → Nat → List Nat
  | 0, _ => []
  | k + 1, x => x % 256 :: leBytes k (x / 256)

/-- JS `u128le(n)`: 16 bytes, least-significant first.  The loop keeps only
the low 8 bits at each step, so bits of `n` above 128 are silently dropped. -/
def u128le (n : Nat) : List Nat := leBytes 16 n

/-- JS `u128be(n)`: the same byte stream written from index 15 down to 0,
i.e. the reversal of the little-endian encoding. -/
def u128be (n : Nat) : List Nat := (leBytes 16 n).reverse

/-- JS `\d` / `[0-9]` on a code unit. -/
def isDigitB (b : Nat) : Bool := decide (48 ≤ b ∧ b ≤ 57)

/-- JS `[0-9a-fA-F]` on a code unit. -/
def isHexB (b : Nat) : Bool :=
  isDigitB b || decide (97 ≤ b ∧ b ≤ 102) || decide (65 ≤ b ∧ b ≤ 70)

/-- `BigInt`/`Number` of a run of decimal digit code units. -/
def natOfDigits (ds : List Nat) : Nat := ds.foldl (fun n d => n * 10 + (d - 48)) 0

/-- The error message thrown by `parseAlkaneId` (apostrophes elided). -/
def alkaneIdErr : List Nat := asciiOf ("AlkaneId must be A:B with decimal u128 components")

/-- JS `parseAlkaneId(s)`: `s.match(/^([0-9]+):([0-9]+)$/)`, then `BigInt` on
both groups; throws when the regex does not match.  The greedy digit runs of
the regex cannot backtrack past the colon (`:` is not a digit), so the regex
is modelled by this deterministic scanner.  No bound on the numerals is
checked anywhere. -/
def parseAlkaneId (s : List Nat) : Except (List Nat) (Nat × Nat) :=
  match s.dropWhile isDigitB with
  | 58 :: d2 =>
    if (s.takeWhile isDigitB).isEmpty then .error alkaneIdErr
    else if d2.isEmpty then .error alkaneIdErr
    else if d2.all isDigitB then
      .ok (natOfDigits (s.takeWhile isDigitB), natOfDigits d2)
    else .error alkaneIdErr
  | _ => .error alkaneIdErr

/-- The endianness flag (`"le" | "be"`). -/
inductive Endian
  | le
  | be
deriving DecidableEq, Repr

/-- `endian === "be" ? u128be : u128le` applied to one component. -/
def encode (e : Endian) (n : Nat) : List Nat :=
  match e with
  | .le => u128le n
  | .be => u128be n

/-- JS `makePrefix(id, endian)`:
`"/alkanes/" ++ enc(a) ++ enc(b) ++ "/storage"`. -/
def makePrefix (id : List Nat) (e : Endian) : Except (List Nat) (List Nat) :=
  match parseAlkaneId id with
  | .error m => .error m
  | .ok (a, b) =>
    .ok (asciiOf ("/alkanes/") ++ encode e a ++ encode e b ++ asciiOf ("/storage"))

/-- Little-endian value of a byte list (the decoding direction is not in the
source; it is the canonical reading used to state the round-trip claim). -/
def decodeLE (bs : List Nat) : Nat := bs.foldr (fun b acc => b + 256 * acc) 0

/-- Big-endian value of a byte list. -/
def decodeBE (bs : List Nat) : Nat := bs.foldl (fun acc b => acc * 256 + b) 0

/-- Read a byte list back with the given endianness. -/
def decodeBytes (e : Endian) (bs : List Nat) : Nat :=
  match e with
  | .le => decodeLE bs
  | .be => decodeBE bs

theorem leBytes_length (k x : Nat) : (leBytes k x).length = k := by
  induction k generalizing x with
  | zero => rfl
  | succ k ih => simp [leBytes, ih]

theorem decodeLE_leBytes (k x : Nat) (h : x < 256 ^ k) :
    decodeLE (leBytes k x) = x := by
  induction k generalizing x with
  | zero =>
    simp [leBytes, decodeLE]
    omega
  | succ k ih =>
    have hx : x / 256 < 256 ^ k := by
      rw [Nat.div_lt_iff_lt_mul (by norm_num)]
      calc x < 256 ^ (k + 1) := h
        _ = 256 ^ k * 256 := by ring
    have := ih (x / 256) hx
    simp only [leBytes, decodeLE, List.foldr_cons] at *
    rw [this]
    omega

theorem decodeBE_reverse (l : List Nat) : decodeBE l.reverse = decodeLE l := by
  induction l with
  | nil => rfl
  | cons a t ih =>
    simp only [List.reverse_cons, decodeBE, List.foldl_append, List.foldl_cons,
      List.foldl_nil, decodeLE, List.foldr_cons] at *
    rw [ih]
    ring

theorem u128le_length (n : Nat) : (u128le n).length = 16 := leBytes_length 16 n

theorem u128be_length (n : Nat) : (u128be n).length = 16 := by
  simp [u128be, leBytes_length]

theorem encode_length (e : Endian) (n : Nat) : (encode e n).length = 16 := by
  cases e <;> simp [encode, u128le_length, u128be_length]

theorem decodeBytes_encode (e : Endian) (n : Nat) (h : n < 2 ^ 128) :
    decodeBytes e (encode e n) = n := by
  have h2 : n < 256 ^ 16 := by
    calc n < 2 ^ 128 := h
      _ = 256 ^ 16 := by norm_num
  cases e with
  | le => exact decodeLE_leBytes 16 n h2
  | be =>
    show decodeBE (leBytes 16 n).reverse = n
    rw [decodeBE_reverse]
    exact decodeLE_leBytes 16 n h2

theorem takeWhile_mem_sat {p : Nat → Bool} :
    ∀ {l : List Nat} {a : Nat}, a ∈ l.takeWhile p → p a = true := by
  intro l
  induction l with
  | nil => intro a h; simp [List.takeWhile] at h
  | cons b t ih =>
    intro a h
    simp only [List.takeWhile] at h
    cases hb : p b with
    | false => rw [hb] at h; simp at h
    | true =>
      rw [hb] at h
      rcases List.mem_cons.mp h with rfl | h2
      · exact hb
      · exact ih h2

theorem takeWhile_all_append {p : Nat → Bool} {l1 : List Nat}
    (h : ∀ c ∈ l1, p c = true) {a : Nat} (ha : p a = false) (l2 : List Nat) :
    (l1 ++ a :: l2).takeWhile p = l1 ∧ (l1 ++ a :: l2).dropWhile p = a :: l2 := by
  induction l1 with
  | nil => simp [List.takeWhile, List.dropWhile, ha]
  | cons b t ih =>
    have hb : p b = true := h b (by simp)
    have ht : ∀ c ∈ t, p c = true := fun c hc => h c (by simp [hc])
    have := ih ht
    simp [List.takeWhile, List.dropWhile, hb, this.1, this.2]

/-- `parseAlkaneId` succeeds on exactly the strings that decompose as a
non-empty digit run, a colon, and a non-empty digit run. -/
theorem parseAlkaneId_ok_iff (s : List Nat) :
    (∃ v, parseAlkaneId s = .ok v) ↔
      ∃ d1 d2, s = d1 ++ 58 :: d2 ∧ d1 ≠ [] ∧ d2 ≠ [] ∧
        (∀ c ∈ d1, isDigitB c = true) ∧ (∀ c ∈ d2, isDigitB c = true) := by
  constructor
  · rintro ⟨v, hv⟩
    unfold parseAlkaneId at hv
    split at hv
    case h_1 d2 heq =>
      split_ifs at hv with h1 h2 h3
      refine ⟨s.takeWhile isDigitB, d2, ?_, ?_, ?_, ?_, ?_⟩
      · conv_lhs => rw [← List.takeWhile_append_dropWhile (p := isDigitB) (l := s)]
        rw [heq]
      · simpa [List.isEmpty_iff] using h1
      · simpa [List.isEmpty_iff] using h2
      · exact fun c hc => takeWhile_mem_sat hc
      · exact fun c hc => List.all_eq_true.mp h3 c hc
    case h_2 => cases hv
  · rintro ⟨d1, d2, rfl, h1, h2, hd1, hd2⟩
    have h58 : isDigitB 58 = false := by decide
    obtain ⟨ht, hd⟩ := takeWhile_all_append hd1 h58 d2
    refine ⟨(natOfDigits d1, natOfDigits d2), ?_⟩
    unfold parseAlkaneId
    rw [ht, hd]
    simp [List.isEmpty_iff, h1, h2, List.all_eq_true]
    exact fun c hc => hd2 c hc

/-- C8: `parseAlkaneId` succeeds exactly when the whole string is two decimal
digit runs separated by one colon — no surrounding whitespace, sign,
fractional part or hex digits — and fails with the invalid-identifier error
otherwise, in particular on `"1:-2"`, `"1.5:2"`, `" 1:2"` and `"abc"`. -/
theorem c8_parseAlkaneId_exact :
    (∀ s : List Nat,
      (∃ v, parseAlkaneId s = .ok v) ↔
        ∃ d1 d2, s = d1 ++ 58 :: d2 ∧ d1 ≠ [] ∧ d2 ≠ [] ∧
          (∀ c ∈ d1, isDigitB c = true) ∧ (∀ c ∈ d2, isDigitB c = true)) ∧
    parseAlkaneId (asciiOf ("1:-2")) = .error alkaneIdErr ∧
    parseAlkaneId (asciiOf ("1.5:2")) = .error alkaneIdErr ∧
    parseAlkaneId (asciiOf (" 1:2")) = .error alkaneIdErr ∧
    parseAlkaneId (asciiOf ("abc")) = .error alkaneIdErr :=
  ⟨parseAlkaneId_ok_iff, by decide, by decide, by decide, by decide⟩

/-- C3 is refuted by the code: a component that does not fit in 128 bits is
neither rejected upstream nor makes the encoding fail.  `parseAlkaneId`
accepts the decimal spelling of `2^128`, `u128le` silently truncates it to
the same 16 bytes as `0`, and the two identifiers `2^128 : 1` and `0:1`
derive the same storage prefix. -/
theorem c3_overflow_not_rejected :
    parseAlkaneId (asciiOf ("340282366920938463463374607431768211456:1")) =
      .ok (2 ^ 128, 1) ∧
    u128le (2 ^ 128) = u128le 0 ∧
    makePrefix (asciiOf ("340282366920938463463374607431768211456:1")) .le =
      makePrefix (asciiOf ("0:1")) .le :=
  ⟨by decide, by decide, by decide⟩

/-- C4: for every identifier accepted by `parseAlkaneId` whose components are
below `2^128`, and for each endianness, decoding the 16-byte fields at
offsets 9..24 and 25..40 of the `makePrefix` output with the same endianness
recovers the two components exactly. -/
theorem c4_makePrefix_roundtrip (s : List Nat) (a b : Nat) (e : Endian)
    (hp : parseAlkaneId s = .ok (a, b)) (ha : a < 2 ^ 128) (hb : b < 2 ^ 128) :
    ∃ p, makePrefix s e = .ok p ∧
      decodeBytes e ((p.drop 9).take 16) = a ∧
      decodeBytes e ((p.drop 25).take 16) = b := by
  have l9 : (asciiOf ("/alkanes/")).length = 9 := by decide
  refine ⟨asciiOf ("/alkanes/") ++ encode e a ++ encode e b ++ asciiOf ("/storage"),
    ?_, ?_, ?_⟩
  · rw [makePrefix, hp]
  · simp only [List.append_assoc]
    rw [show (9 : Nat) = (asciiOf ("/alkanes/")).length from l9.symm, List.drop_left,
      show (16 : Nat) = (encode e a).length from (encode_length e a).symm,
      List.take_left, decodeBytes_encode e a ha]
  · simp only [List.append_assoc]
    rw [show (25 : Nat) = 9 + 16 by norm_num, ← List.drop_drop,
      show (9 : Nat) = (asciiOf ("/alkanes/")).length from l9.symm, List.drop_left,
      show (16 : Nat) = (encode e a).length from (encode_length e a).symm,
      List.drop_left, encode_length e a,
      show (16 : Nat) = (encode e b).length from (encode_length e b).symm,
      List.take_left, decodeBytes_encode e b hb]

theorem c4_makePrefix_roundtrip_witness :
    ∃ p, makePrefix (asciiOf ("3:5")) Endian.le = .ok p ∧
      decodeBytes Endian.le ((p.drop 9).take 16) = 3 ∧
      decodeBytes Endian.le ((p.drop 25).take 16) = 5 :=
  c4_makePrefix_roundtrip (asciiOf ("3:5")) 3 5 Endian.le (by decide) (by decide)
    (by decide)

/-- The decoded form of one value (`decodeVal` / `parseValue` result object):
`{text, block, hex}`, `{text}` or `{hex}`.  Text fields are printable-ASCII
byte sequences and are kept as the bytes themselves. -/
inductive DecodedValue
  | textBlock (text : List Nat) (block : Nat) (hex : List Nat)
  | textOnly (text : List Nat)
  | hexOnly (hex : List Nat)
deriving DecidableEq, Repr

/-- Model of `text.match(/^(\d+):([0-9a-fA-F]+)0*$/)`.  The digit run cannot
backtrack past the colon, and since `0` is itself in the hex class the greedy
hex group always consumes the whole tail, leaving the trailing `0*` empty; so
the regex matches iff the text is a non-empty digit run, a colon and a
non-empty hex run, with group 2 the entire hex run (trailing zeros kept). -/
def matchBlockHex (t : List Nat) : Option (List Nat × List Nat) :=
  match t.dropWhile isDigitB with
  | 58 :: h =>
    if (t.takeWhile isDigitB).isEmpty then none
    else if h.isEmpty then none
    else if h.all isHexB then some (t.takeWhile isDigitB, h)
    else none
  | _ => none

/-- JS `String.toLowerCase` on one ASCII code unit. -/
def lowerByte (b : Nat) : Nat := if 65 ≤ b ∧ b ≤ 90 then b + 32 else b

/-- JS `decodeVal` (= `parseValue`): printable values are decoded as text and
optionally as a `block:hex` record; other values are exposed as opaque hex.
`Number(m[1])` is modelled as the exact numeral value. -/
def decodeVal (buf : List Nat) : DecodedValue :=
  if isPrint buf then
    match matchBlockHex buf with
    | some (d, h) => .textBlock buf (natOfDigits d) (h.map lowerByte)
    | none => .textOnly buf
  else .hexOnly (toHexStr buf)

/-- C1 is refuted at its own example: on the value bytes `"12:ab00"` the hex
field keeps the trailing zero padding (`"ab00"`), because `0` is a hex digit
and the greedy hex group of the regex consumes it before the `0*` tail. -/
theorem c1_counterexample_trailing_zeros :
    decodeVal (asciiOf ("12:ab00")) =
      .textBlock (asciiOf ("12:ab00")) 12 (asciiOf ("ab00")) ∧
    decodeVal (asciiOf ("12:ab00")) ≠
      .textBlock (asciiOf ("12:ab00")) 12 (asciiOf ("ab")) :=
  ⟨by decide, by decide⟩

/-- C1 as amended: for printable value bytes of the shape
digit-run `:` hex-run, `decodeVal` returns `{text, block, hex}` where `hex`
is the entire hex run lowercased, trailing zero padding included (the `0*`
group of the regex never strips anything). -/
theorem c1_decodeVal_blockhex (d h : List Nat)
    (hd : d ≠ []) (hh : h ≠ [])
    (hdd : ∀ c ∈ d, isDigitB c = true) (hhh : ∀ c ∈ h, isHexB c = true) :
    decodeVal (d ++ 58 :: h) =
      .textBlock (d ++ 58 :: h) (natOfDigits d) (h.map lowerByte) := by
  have hpr : isPrint (d ++ 58 :: h) = true := by
    unfold isPrint
    rw [Bool.and_eq_true, List.all_eq_true]
    constructor
    · cases d with
      | nil => simp
      | cons a t => simp
    · intro b hb
      rcases List.mem_append.mp hb with hbd | hbh
      · have := hdd b hbd
        unfold isDigitB at this
        simp only [decide_eq_true_eq] at this ⊢
        omega
      · rcases List.mem_cons.mp hbh with rfl | hbh2
        · simp only [decide_eq_true_eq]; omega
        · have := hhh b hbh2
          unfold isHexB isDigitB at this
          simp only [Bool.or_eq_true, decide_eq_true_eq] at this
          simp only [decide_eq_true_eq]
          omega
  have h58 : isDigitB 58 = false := by decide
  obtain ⟨ht, hdw⟩ := takeWhile_all_append hdd h58 h
  have hm : matchBlockHex (d ++ 58 :: h) = some (d, h) := by
    unfold matchBlockHex
    rw [ht, hdw]
    simp [List.isEmpty_iff, hd, hh, List.all_eq_true]
    exact fun c hc => hhh c hc
  unfold decodeVal
  rw [hpr, hm]
  simp

theorem c1_decodeVal_blockhex_witness :
    decodeVal (asciiOf ("12:ab00")) =
      .textBlock (asciiOf ("12:ab00")) 12 ((asciiOf ("ab00")).map lowerByte) :=
  c1_decodeVal_blockhex (asciiOf ("12")) (asciiOf ("ab00")) (by decide) (by decide)
    (by decide) (by decide)

/-- C10: the empty value is not printable, so `decodeVal` takes the opaque
branch and returns the hex rendering of zero bytes, `"0x"`. -/
theorem c10_empty_value_opaque :
    isPrint [] = false ∧ decodeVal [] = .hexOnly (asciiOf ("0x")) :=
  ⟨by decide, by decide⟩

/-- The byte sequence of the `/storage` marker. -/
def storageMarker : List Nat := asciiOf ("/storage")

/-- The byte sequence of the `/length` tag. -/
def lengthTag : List Nat := asciiOf ("/length")

/-- First index at which `pat` occurs as a contiguous sublist
(JS `String.indexOf` / `Buffer.indexOf`, `none` for `-1`). -/
def findSubIdx (pat : List Nat) : List Nat → Option Nat
  | [] => if pat.isEmpty then some 0 else none
  | b :: t =>
    if pat.isPrefixOf (b :: t) then some 0
    else (findSubIdx pat t).map (· + 1)

/-- The first step of `normalizeSuffix`: everything after the first
`/storage` marker, or the whole key when the marker is absent. -/
def suffixAfterMarker (k : List Nat) : List Nat :=
  match findSubIdx storageMarker k with
  | some i => k.drop (i + storageMarker.length)
  | none => k

/-- The second step of `normalizeSuffix`: `if (s.startsWith("//")) s = s.slice(1)`. -/
def dropDoubledSlash (s : List Nat) : List Nat :=
  if [47, 47].isPrefixOf s then s.drop 1 else s

/-- The last step of `normalizeSuffix`: `if (!s.startsWith("/")) s = "/" + s`. -/
def ensureSlash (s : List Nat) : List Nat :=
  if [47].isPrefixOf s then s else 47 :: s

/-- JS `normalizeSuffix(keyAscii)`: everything after the first `/storage`
(the whole key if absent), one leading separator dropped from a doubled one,
and a leading separator ensured. -/
def normalizeSuffix (k : List Nat) : List Nat :=
  ensureSlash (dropDoubledSlash (suffixAfterMarker k))

/-- JS `contractKeyHex(kbuf)`, with Buffer semantics kept literally:
`tail[0] === 0x2f && tail[1] === 0x2f` via indexed lookup, and
`tail.slice(-7).equals(lenTag)` via `drop (length - 7)` (a negative slice
start clamps to 0, so a short tail compares unequal by length). -/
def contractKeyHex (k : List Nat) : List Nat :=
  match findSubIdx storageMarker k with
  | none => toHexStr k
  | some i =>
    let t0 := k.drop (i + storageMarker.length)
    let t1 := if t0.get? 0 = some 47 ∧ t0.get? 1 = some 47 then t0.drop 1 else t0
    let t2 :=
      if t1.drop (t1.length - lengthTag.length) = lengthTag then
        t1.take (t1.length - lengthTag.length)
      else t1
    toHexStr t2

/-- `extractContractKeyHex` as the spec words it: full key as hex when the
marker is absent; otherwise the tail after the marker, one leading separator
dropped when the tail begins with a doubled separator, and the literal
`/length` suffix stripped when the tail ends with it. -/
def contractKeyHexSpec (k : List Nat) : List Nat :=
  match findSubIdx storageMarker k with
  | none => toHexStr k
  | some i =>
    let t0 := k.drop (i + storageMarker.length)
    let t1 := if [47, 47].isPrefixOf t0 then t0.drop 1 else t0
    let t2 :=
      if lengthTag.isSuffixOf t1 then t1.take (t1.length - lengthTag.length)
      else t1
    toHexStr t2

theorem get01_iff_isPrefixOf (t : List Nat) :
    (t.get? 0 = some 47 ∧ t.get? 1 = some 47) ↔ [47, 47].isPrefixOf t = true := by
  rw [List.isPrefixOf_iff_prefix]
  match t with
  | [] =>
    constructor
    · rintro ⟨h, _⟩; simp [List.get?] at h
    · rintro ⟨u, hu⟩; simp at hu
  | [a] =>
    constructor
    · rintro ⟨_, h⟩; simp [List.get?] at h
    · rintro ⟨u, hu⟩
      have : 47 :: 47 :: u = [a] := hu
      injection this with _ h2
      simp at h2
  | a :: b :: r =>
    constructor
    · rintro ⟨h1, h2⟩
      simp only [List.get?, Option.some_inj] at h1 h2
      subst h1; subst h2
      exact ⟨r, rfl⟩
    · rintro ⟨u, hu⟩
      have : 47 :: 47 :: u = a :: b :: r := hu
      injection this with h1 h2
      injection h2 with h2 _
      subst h1; subst h2
      simp [List.get?]

theorem drop_eq_iff_isSuffixOf (pat t : List Nat) :
    (t.drop (t.length - pat.length) = pat) ↔ pat.isSuffixOf t = true := by
  rw [List.isSuffixOf_iff_suffix]
  constructor
  · intro h
    exact h ▸ List.drop_suffix _ _
  · intro h
    obtain ⟨u, hu⟩ := h
    subst hu
    rw [List.length_append, Nat.add_sub_cancel, List.drop_left]

/-- C7: the contract-key extraction returns the full key as hex when the
`/storage` marker is absent, else the hex of the byte tail after the marker
with one leading separator dropped from a doubled one and a trailing
`/length` stripped (stated as the spec words it, and proved equal to the
code); on key bytes `"abc/storage//foo/length"` it produces the hex of
`"/foo"`, while `normalizeSuffix` on the same bytes yields `"/foo/length"`. -/
theorem c7_contractKeyHex_spec :
    (∀ k, contractKeyHex k = contractKeyHexSpec k) ∧
    contractKeyHex (asciiOf ("abc/storage//foo/length")) =
      toHexStr (asciiOf ("/foo")) ∧
    normalizeSuffix (asciiOf ("abc/storage//foo/length")) =
      asciiOf ("/foo/length") := by
  refine ⟨?_, by decide, by decide⟩
  intro k
  unfold contractKeyHex contractKeyHexSpec
  cases hf : findSubIdx storageMarker k with
  | none => rfl
  | some i =>
    simp only
    rw [if_congr (get01_iff_isPrefixOf (k.drop (i + storageMarker.length))) rfl rfl]
    generalize (if [47, 47].isPrefixOf (k.drop (i + storageMarker.length)) = true
      then (k.drop (i + storageMarker.length)).drop 1
      else k.drop (i + storageMarker.length)) = t1
    rw [if_congr (drop_eq_iff_isSuffixOf lengthTag t1) rfl rfl]

/-- JS `pretty`: printable bytes as themselves, others as a `\xNN` escape. -/
def pretty (buf : List Nat) : List Nat :=
  (buf.map (fun c =>
    if 0x20 ≤ c ∧ c < 0x7f then [c]
    else [92, 120, hexDigit (c / 16), hexDigit (c % 16)])).flatten

/-- One entry of the `records` array built by `aggregate`. -/
structure RecordEntry where
  key : List Nat
  ckHex : List Nat
  rawAscii : List Nat
  rawHex : List Nat
  value : DecodedValue
  valueHex : List Nat
deriving DecidableEq, Repr

/-- JS object property read (first matching key; insertion order kept). -/
def lookupA {β : Type} : List (List Nat × β) → List Nat → Option β
  | [], _ => none
  | (k, v) :: t, s => if k = s then some v else lookupA t s

/-- JS `(by[suffix] ??= []).push(val)`: append to the entry in place, or add
a new key at the end. -/
def pushA : List (List Nat × List DecodedValue) → List Nat → DecodedValue →
    List (List Nat × List DecodedValue)
  | [], s, v => [(s, [v])]
  | (k, vs) :: t, s, v =>
    if k = s then (k, vs ++ [v]) :: t else (k, vs) :: pushA t s v

/-- JS `latest[suffix] = val`: overwrite in place, or add at the end. -/
def setA : List (List Nat × DecodedValue) → List Nat → DecodedValue →
    List (List Nat × DecodedValue)
  | [], s, v => [(s, v)]
  | (k, c) :: t, s, v =>
    if k = s then (k, v) :: t else (k, c) :: setA t s v

/-- `typeof val.block === "number"`. -/
def hasBlock : DecodedValue → Bool
  | .textBlock _ _ _ => true
  | _ => false

/-- The `block` field (only meaningful when `hasBlock`). -/
def blockOf : DecodedValue → Nat
  | .textBlock _ b _ => b
  | _ => 0

/-- The mutable state of the `aggregate` loop. -/
structure AggState where
  recs : List RecordEntry
  byS : List (List Nat × List DecodedValue)
  latest : List (List Nat × DecodedValue)

/-- The record object pushed onto the flat `records` list for one raw pair. -/
def mkRecord (p : List Nat × List Nat) : RecordEntry :=
  { key := normalizeSuffix p.1, ckHex := contractKeyHex p.1,
    rawAscii := pretty p.1, rawHex := toHexStr p.1,
    value := decodeVal p.2, valueHex := toHexStr p.2 }

/-- One iteration of the `aggregate` loop over the raw `(kbuf, vbuf)` pairs. -/
def aggStep (st : AggState) (p : List Nat × List Nat) : AggState :=
  let suffix := normalizeSuffix p.1
  let val := decodeVal p.2
  { recs := st.recs ++ [mkRecord p]
    byS := pushA st.byS suffix val
    latest :=
      if hasBlock val then
        match lookupA st.latest suffix with
        | none => setA st.latest suffix val
        | some c => if blockOf val > blockOf c then setA st.latest suffix val
                    else st.latest
      else st.latest }

/-- The result object of JS `aggregate` (`groupResults` builds the same maps,
with records lacking the `contractKeyHex` field). -/
structure AggResult where
  count : Nat
  records : List RecordEntry
  bySuffix : List (List Nat × List DecodedValue)
  latestBySuffix : List (List Nat × DecodedValue)
deriving Repr

/-- JS `aggregate(records)`. -/
def aggregate (ps : List (List Nat × List Nat)) : AggResult :=
  let st := ps.foldl aggStep ⟨[], [], []⟩
  { count := st.recs.length, records := st.recs,
    bySuffix := st.byS, latestBySuffix := st.latest }

/-- The decoded values, in extraction order, of the pairs grouping to a given
suffix (what `bySuffix` holds, stated from the spec). -/
def valsOf (ps : List (List Nat × List Nat)) (s : List Nat) : List DecodedValue :=
  (ps.filter (fun p => decide (normalizeSuffix p.1 = s))).map
    (fun p => decodeVal p.2)

/-- A JS map entry: absent for `[]`, else the list itself. -/
def optList {α : Type} (l : List α) : Option (List α) :=
  if l.isEmpty then none else some l

/-- One step of the update `latestBySuffix` performs: take the new value when
there is no current one or it is strictly larger. -/
def latestStep (acc : Option DecodedValue) (v : DecodedValue) : Option DecodedValue :=
  match acc with
  | none => some v
  | some c => if blockOf v > blockOf c then some v else acc

/-- The running strict-greater fold the `latestBySuffix` update performs. -/
def latestFold (vs : List DecodedValue) : Option DecodedValue :=
  vs.foldl latestStep none

/-- The maximum `block` among a list of values. -/
def maxB : List DecodedValue → Nat
  | [] => 0
  | v :: t => max (blockOf v) (maxB t)

/-- The first value attaining the maximum `block` (ties keep the
earlier-seen entry), `none` for the empty list — the spec reading of
`latestBySuffix`. -/
def firstMax (vs : List DecodedValue) : Option DecodedValue :=
  if vs.isEmpty then none else vs.find? (fun v => decide (blockOf v = maxB vs))

theorem lookupA_pushA_eq (l : List (List Nat × List DecodedValue)) (s : List Nat)
    (v : DecodedValue) :
    lookupA (pushA l s v) s = some ((lookupA l s).getD [] ++ [v]) := by
  induction l with
  | nil => simp [pushA, lookupA]
  | cons kv t ih =>
    obtain ⟨k, vs⟩ := kv
    by_cases h : k = s
    · subst h
      simp [pushA, lookupA]
    · simp [pushA, lookupA, h, ih]

theorem lookupA_pushA_ne (l : List (List Nat × List DecodedValue)) {s s2 : List Nat}
    (h : s ≠ s2) (v : DecodedValue) :
    lookupA (pushA l s v) s2 = lookupA l s2 := by
  induction l with
  | nil => simp [pushA, lookupA, h]
  | cons kv t ih =>
    obtain ⟨k, vs⟩ := kv
    by_cases hk : k = s
    · subst hk
      simp [pushA, lookupA, h, ih]
    · simp [pushA, lookupA, hk, ih]

theorem lookupA_setA_eq (l : List (List Nat × DecodedValue)) (s : List Nat)
    (v : DecodedValue) :
    lookupA (setA l s v) s = some v := by
  induction l with
  | nil => simp [setA, lookupA]
  | cons kv t ih =>
    obtain ⟨k, c⟩ := kv
    by_cases h : k = s
    · subst h
      simp [setA, lookupA]
    · simp [setA, lookupA, h, ih]

theorem lookupA_setA_ne (l : List (List Nat × DecodedValue)) {s s2 : List Nat}
    (h : s ≠ s2) (v : DecodedValue) :
    lookupA (setA l s v) s2 = lookupA l s2 := by
  induction l with
  | nil => simp [setA, lookupA, h]
  | cons kv t ih =>
    obtain ⟨k, c⟩ := kv
    by_cases hk : k = s
    · subst hk
      simp [setA, lookupA, h, ih]
    · simp [setA, lookupA, hk, ih]

theorem latestFold_append (vs : List DecodedValue) (v : DecodedValue) :
    latestFold (vs ++ [v]) = latestStep (latestFold vs) v := by
  simp [latestFold, List.foldl_append]

theorem maxB_cons (v : DecodedValue) (t : List DecodedValue) :
    maxB (v :: t) = max (blockOf v) (maxB t) := rfl

theorem foldl_latestStep_firstMax (vs : List DecodedValue) :
    ∀ c, vs.foldl latestStep (some c) =
      (c :: vs).find? (fun v => decide (blockOf v = maxB (c :: vs))) := by
  induction vs with
  | nil =>
    intro c
    simp [List.find?, maxB]
  | cons v tl ih =>
    intro c
    have hstep : latestStep (some c) v =
        some (if blockOf v > blockOf c then v else c) := by
      by_cases hbv : blockOf v > blockOf c <;> simp [latestStep, hbv]
    rw [List.foldl_cons, hstep, ih]
    by_cases hbv : blockOf v > blockOf c
    · simp only [hbv, if_true]
      have hM : maxB (c :: v :: tl) = maxB (v :: tl) := by
        simp only [maxB_cons]
        omega
      rw [hM]
      have hc2 : decide (blockOf c = maxB (v :: tl)) = false := by
        simp only [decide_eq_false_iff_not, maxB_cons]
        omega
      conv_rhs => rw [List.find?_cons]
      simp only [hc2]
    · simp only [hbv, if_false]
      have hM : maxB (c :: v :: tl) = maxB (c :: tl) := by
        simp only [maxB_cons]
        omega
      rw [hM]
      by_cases hc : blockOf c = maxB (c :: tl)
      · have hct : decide (blockOf c = maxB (c :: tl)) = true := by
          simp [hc]
        conv_lhs => rw [List.find?_cons]
        conv_rhs => rw [List.find?_cons]
        simp only [hct]
      · have hcf : decide (blockOf c = maxB (c :: tl)) = false := by
          simp [hc]
        have hvf : decide (blockOf v = maxB (c :: tl)) = false := by
          simp only [decide_eq_false_iff_not, maxB_cons] at hc ⊢
          omega
        conv_lhs => rw [List.find?_cons]
        conv_rhs => rw [List.find?_cons]
        simp only [hcf]
        conv_rhs => rw [List.find?_cons]
        simp only [hvf]

theorem latestFold_eq_firstMax (vs : List DecodedValue) :
    latestFold vs = firstMax vs := by
  cases vs with
  | nil => rfl
  | cons c tl =>
    unfold latestFold firstMax
    rw [List.foldl_cons]
    have : latestStep none c = some c := rfl
    rw [this, foldl_latestStep_firstMax]
    simp

theorem valsOf_cons (p : List Nat × List Nat) (t : List (List Nat × List Nat))
    (s : List Nat) :
    valsOf (p :: t) s =
      if normalizeSuffix p.1 = s then decodeVal p.2 :: valsOf t s else valsOf t s := by
  unfold valsOf
  by_cases h : normalizeSuffix p.1 = s <;> simp [List.filter_cons, h]

theorem aggregate_loop_spec (ps : List (List Nat × List Nat)) :
    ∀ (st : AggState) (f : List Nat → List DecodedValue),
      (∀ s, lookupA st.byS s = optList (f s)) →
      (∀ s, lookupA st.latest s = latestFold ((f s).filter hasBlock)) →
      ∀ s,
        lookupA (ps.foldl aggStep st).byS s = optList (f s ++ valsOf ps s) ∧
        lookupA (ps.foldl aggStep st).latest s =
          latestFold ((f s ++ valsOf ps s).filter hasBlock) := by
  induction ps with
  | nil =>
    intro st f hby hlat s
    simp only [List.foldl_nil, valsOf, List.filter_nil, List.map_nil,
      List.append_nil]
    exact ⟨hby s, hlat s⟩
  | cons p t ih =>
    intro st f hby hlat s
    have hby2 : ∀ s2, lookupA (aggStep st p).byS s2 =
        optList (if normalizeSuffix p.1 = s2
          then f s2 ++ [decodeVal p.2] else f s2) := by
      intro s2
      by_cases h : normalizeSuffix p.1 = s2
      · rw [if_pos h]
        subst h
        show lookupA (pushA st.byS (normalizeSuffix p.1) (decodeVal p.2))
          (normalizeSuffix p.1) = _
        rw [lookupA_pushA_eq, hby (normalizeSuffix p.1)]
        cases hf : f (normalizeSuffix p.1) with
        | nil => simp [optList]
        | cons a b => simp [optList]
      · rw [if_neg h]
        show lookupA (pushA st.byS (normalizeSuffix p.1) (decodeVal p.2)) s2 = _
        rw [lookupA_pushA_ne _ h, hby s2]
    have hlat2 : ∀ s2, lookupA (aggStep st p).latest s2 =
        latestFold ((if normalizeSuffix p.1 = s2
          then f s2 ++ [decodeVal p.2] else f s2).filter hasBlock) := by
      intro s2
      by_cases h : normalizeSuffix p.1 = s2
      · rw [if_pos h]
        subst h
        by_cases hB : hasBlock (decodeVal p.2)
        · have hfil : List.filter hasBlock [decodeVal p.2] = [decodeVal p.2] := by
            simp [hB]
          rw [List.filter_append, hfil, latestFold_append,
            ← hlat (normalizeSuffix p.1)]
          rcases hl : lookupA st.latest (normalizeSuffix p.1) with _ | c
          · have hstep : (aggStep st p).latest =
                setA st.latest (normalizeSuffix p.1) (decodeVal p.2) := by
              show (if hasBlock (decodeVal p.2) = true then _ else _) = _
              rw [if_pos hB, hl]
            rw [hstep, lookupA_setA_eq]
            rfl
          · by_cases hgt : blockOf (decodeVal p.2) > blockOf c
            · have hstep : (aggStep st p).latest =
                  setA st.latest (normalizeSuffix p.1) (decodeVal p.2) := by
                show (if hasBlock (decodeVal p.2) = true then _ else _) = _
                rw [if_pos hB]
                simp only [hl]
                rw [if_pos hgt]
              rw [hstep, lookupA_setA_eq]
              simp [latestStep, hgt]
            · have hstep : (aggStep st p).latest = st.latest := by
                show (if hasBlock (decodeVal p.2) = true then _ else _) = _
                rw [if_pos hB]
                simp only [hl]
                rw [if_neg hgt]
              rw [hstep, hl]
              simp [latestStep, hgt]
        · have hstep : (aggStep st p).latest = st.latest := by
            show (if hasBlock (decodeVal p.2) = true then _ else _) = _
            rw [if_neg hB]
          have hfil : List.filter hasBlock [decodeVal p.2] = [] := by
            simp [hB]
          rw [hstep, List.filter_append, hfil, List.append_nil,
            hlat (normalizeSuffix p.1)]
      · rw [if_neg h]
        have hsame : lookupA (aggStep st p).latest s2 = lookupA st.latest s2 := by
          by_cases hB : hasBlock (decodeVal p.2)
          · rcases hl : lookupA st.latest (normalizeSuffix p.1) with _ | c
            · have hstep : (aggStep st p).latest =
                  setA st.latest (normalizeSuffix p.1) (decodeVal p.2) := by
                show (if hasBlock (decodeVal p.2) = true then _ else _) = _
                rw [if_pos hB, hl]
              rw [hstep, lookupA_setA_ne _ h]
            · by_cases hgt : blockOf (decodeVal p.2) > blockOf c
              · have hstep : (aggStep st p).latest =
                    setA st.latest (normalizeSuffix p.1) (decodeVal p.2) := by
                  show (if hasBlock (decodeVal p.2) = true then _ else _) = _
                  rw [if_pos hB]
                  simp only [hl]
                  rw [if_pos hgt]
                rw [hstep, lookupA_setA_ne _ h]
              · have hstep : (aggStep st p).latest = st.latest := by
                  show (if hasBlock (decodeVal p.2) = true then _ else _) = _
                  rw [if_pos hB]
                  simp only [hl]
                  rw [if_neg hgt]
                rw [hstep]
          · have hstep : (aggStep st p).latest = st.latest := by
              show (if hasBlock (decodeVal p.2) = true then _ else _) = _
              rw [if_neg hB]
            rw [hstep]
        rw [hsame, hlat s2]
    have hrec := ih (aggStep st p)
      (fun s2 => if normalizeSuffix p.1 = s2 then f s2 ++ [decodeVal p.2] else f s2)
      hby2 hlat2 s
    have harr : (if normalizeSuffix p.1 = s then f s ++ [decodeVal p.2] else f s)
        ++ valsOf t s = f s ++ valsOf (p :: t) s := by
      rw [valsOf_cons]
      by_cases h : normalizeSuffix p.1 = s
      · rw [if_pos h, if_pos h, List.append_assoc, List.singleton_append]
      · rw [if_neg h, if_neg h]
    rw [List.foldl_cons]
    rw [← harr]
    exact hrec

/-- Three raw pairs under one suffix with blocks 5, 9, 3 (the example of the
claim). -/
def examplePairs : List (List Nat × List Nat) :=
  [(asciiOf ("k/storage/x"), asciiOf ("5:aa")),
   (asciiOf ("k/storage/x"), asciiOf ("9:aa")),
   (asciiOf ("k/storage/x"), asciiOf ("3:aa"))]

/-- C6: for every pair list, `bySuffix` holds exactly the decoded values of
each suffix in extraction order, and `latestBySuffix` holds, per suffix, the
first value attaining the maximum `block` among that suffix's block-exposing
values (strict greater-than updates keep the earlier entry on ties), being
absent when no value exposes a block; on blocks `[5, 9, 3]` it keeps block 9
while `bySuffix` keeps all three in order. -/
theorem c6_latestBySuffix_max :
    (∀ ps s,
      lookupA (aggregate ps).bySuffix s = optList (valsOf ps s) ∧
      lookupA (aggregate ps).latestBySuffix s =
        firstMax ((valsOf ps s).filter hasBlock)) ∧
    lookupA (aggregate examplePairs).latestBySuffix (asciiOf ("/x")) =
      some (.textBlock (asciiOf ("9:aa")) 9 (asciiOf ("aa"))) ∧
    lookupA (aggregate examplePairs).bySuffix (asciiOf ("/x")) =
      some [.textBlock (asciiOf ("5:aa")) 5 (asciiOf ("aa")),
            .textBlock (asciiOf ("9:aa")) 9 (asciiOf ("aa")),
            .textBlock (asciiOf ("3:aa")) 3 (asciiOf ("aa"))] := by
  refine ⟨?_, by decide, by decide⟩
  intro ps s
  have h := aggregate_loop_spec ps ⟨[], [], []⟩ (fun _ => [])
    (fun _ => rfl) (fun _ => rfl) s
  rw [latestFold_eq_firstMax] at h
  exact h

/-- Holds of every grouping key the decoder emits. -/
def startsSlash (k : List Nat) : Bool := decide (k.take 1 = [47])

theorem normalizeSuffix_slash (k : List Nat) :
    normalizeSuffix k ≠ [] ∧ (normalizeSuffix k).take 1 = [47] := by
  unfold normalizeSuffix ensureSlash
  by_cases h : [47].isPrefixOf (dropDoubledSlash (suffixAfterMarker k)) = true
  · rw [if_pos h]
    rw [List.isPrefixOf_iff_prefix] at h
    obtain ⟨u, hu⟩ := h
    rw [← hu]
    simp
  · rw [if_neg h]
    simp

theorem pushA_keys {P : List Nat → Prop} {l : List (List Nat × List DecodedValue)}
    (hl : ∀ kv ∈ l, P kv.1) {s : List Nat} (hs : P s) (v : DecodedValue) :
    ∀ kv ∈ pushA l s v, P kv.1 := by
  induction l with
  | nil =>
    intro kv hkv
    simp only [pushA, List.mem_singleton] at hkv
    rw [hkv]
    exact hs
  | cons kv0 t ih =>
    obtain ⟨k, vs⟩ := kv0
    intro kv hkv
    by_cases hk : k = s
    · simp only [pushA, if_pos hk] at hkv
      rcases List.mem_cons.mp hkv with rfl | h2
      · exact hl (k, vs) (by simp)
      · exact hl kv (by simp [h2])
    · simp only [pushA, if_neg hk] at hkv
      rcases List.mem_cons.mp hkv with rfl | h2
      · exact hl (k, vs) (by simp)
      · exact ih (fun kv2 hkv2 => hl kv2 (by simp [hkv2])) kv h2

theorem setA_keys {P : List Nat → Prop} {l : List (List Nat × DecodedValue)}
    (hl : ∀ kv ∈ l, P kv.1) {s : List Nat} (hs : P s) (v : DecodedValue) :
    ∀ kv ∈ setA l s v, P kv.1 := by
  induction l with
  | nil =>
    intro kv hkv
    simp only [setA, List.mem_singleton] at hkv
    rw [hkv]
    exact hs
  | cons kv0 t ih =>
    obtain ⟨k, c⟩ := kv0
    intro kv hkv
    by_cases hk : k = s
    · simp only [setA, if_pos hk] at hkv
      rcases List.mem_cons.mp hkv with rfl | h2
      · exact hl (k, c) (by simp)
      · exact hl kv (by simp [h2])
    · simp only [setA, if_neg hk] at hkv
      rcases List.mem_cons.mp hkv with rfl | h2
      · exact hl (k, c) (by simp)
      · exact ih (fun kv2 hkv2 => hl kv2 (by simp [hkv2])) kv h2

theorem aggStep_latest_cases (st : AggState) (p : List Nat × List Nat) :
    (aggStep st p).latest = st.latest ∨
    (aggStep st p).latest = setA st.latest (normalizeSuffix p.1) (decodeVal p.2) := by
  by_cases hB : hasBlock (decodeVal p.2) = true
  · cases hl : lookupA st.latest (normalizeSuffix p.1) with
    | none =>
      right
      show (if hasBlock (decodeVal p.2) = true then _ else _) = _
      rw [if_pos hB]
      simp only [hl]
    | some c =>
      by_cases hgt : blockOf (decodeVal p.2) > blockOf c
      · right
        show (if hasBlock (decodeVal p.2) = true then _ else _) = _
        rw [if_pos hB]
        simp only [hl]
        rw [if_pos hgt]
      · left
        show (if hasBlock (decodeVal p.2) = true then _ else _) = _
        rw [if_pos hB]
        simp only [hl]
        rw [if_neg hgt]
  · left
    show (if hasBlock (decodeVal p.2) = true then _ else _) = _
    rw [if_neg hB]

theorem agg_keys (ps : List (List Nat × List Nat)) :
    ∀ st : AggState,
      (∀ kv ∈ st.byS, startsSlash kv.1 = true) →
      (∀ kv ∈ st.latest, startsSlash kv.1 = true) →
      (∀ r ∈ st.recs, startsSlash r.key = true) →
      (∀ kv ∈ (ps.foldl aggStep st).byS, startsSlash kv.1 = true) ∧
      (∀ kv ∈ (ps.foldl aggStep st).latest, startsSlash kv.1 = true) ∧
      (∀ r ∈ (ps.foldl aggStep st).recs, startsSlash r.key = true) := by
  induction ps with
  | nil =>
    intro st h1 h2 h3
    exact ⟨h1, h2, h3⟩
  | cons p t ih =>
    intro st h1 h2 h3
    have hns : startsSlash (normalizeSuffix p.1) = true := by
      unfold startsSlash
      simp [(normalizeSuffix_slash p.1).2]
    rw [List.foldl_cons]
    apply ih
    · exact @pushA_keys (fun x => startsSlash x = true) st.byS h1
        (normalizeSuffix p.1) hns (decodeVal p.2)
    · rcases aggStep_latest_cases st p with hcase | hcase
      · rw [hcase]
        exact h2
      · rw [hcase]
        exact @setA_keys (fun x => startsSlash x = true) st.latest h2
          (normalizeSuffix p.1) hns (decodeVal p.2)
    · intro r hr
      have : (aggStep st p).recs = st.recs ++ [mkRecord p] := rfl
      rw [this] at hr
      rcases List.mem_append.mp hr with hold | hnew
      · exact h3 r hold
      · rw [List.mem_singleton.mp hnew]
        exact hns

/-- C9: `normalizeSuffix` always returns a non-empty string starting with the
separator, and consequently every key of `records`, `bySuffix` and
`latestBySuffix` begins with the separator. -/
theorem c9_keys_start_slash :
    (∀ k, (!(normalizeSuffix k).isEmpty && startsSlash (normalizeSuffix k)) = true) ∧
    (∀ ps, ((aggregate ps).bySuffix.all (fun kv => startsSlash kv.1)) = true) ∧
    (∀ ps, ((aggregate ps).latestBySuffix.all (fun kv => startsSlash kv.1)) = true) ∧
    (∀ ps, ((aggregate ps).records.all (fun r => startsSlash r.key)) = true) := by
  have hmain := fun ps => agg_keys ps ⟨[], [], []⟩ (by simp) (by simp) (by simp)
  refine ⟨?_, ?_, ?_, ?_⟩
  · intro k
    obtain ⟨hne, ht⟩ := normalizeSuffix_slash k
    rw [Bool.and_eq_true, Bool.not_eq_true']
    constructor
    · rw [← Bool.not_eq_true, List.isEmpty_iff]
      exact hne
    · unfold startsSlash
      simp [ht]
  · intro ps
    rw [List.all_eq_true]
    exact fun kv hkv => (hmain ps).1 kv hkv
  · intro ps
    rw [List.all_eq_true]
    exact fun kv hkv => (hmain ps).2.1 kv hkv
  · intro ps
    rw [List.all_eq_true]
    exact fun r hr => (hmain ps).2.2 r hr

/-- A parsed raw key/value pair. -/
structure RawPair where
  kbuf : List Nat
  vbuf : List Nat
deriving DecidableEq, Repr

/-- JS `\s` on the code units occurring in tool output lines. -/
def isWsB (b : Nat) : Bool := decide (b = 32 ∨ b = 9 ∨ b = 11 ∨ b = 12 ∨ b = 13)

/-- Split at newline bytes (the `\n` of `split(/\r?\n/)`). -/
def splitOnNl : List Nat → List (List Nat)
  | [] => [[]]
  | c :: t =>
    match splitOnNl t with
    | [] => [[c]]
    | h :: r => if c = 10 then [] :: h :: r else (c :: h) :: r

/-- Strip one trailing carriage return (the `\r?` of the line separator). -/
def dropCr (l : List Nat) : List Nat :=
  if l.getLast? = some 13 then l.dropLast else l

/-- The lines of a tool output (`stdout.split(/\r?\n/)`). -/
def splitLines (out : List Nat) : List (List Nat) := (splitOnNl out).map dropCr

/-- Value of one hex digit code unit (callers pass hex digits only). -/
def hexVal (b : Nat) : Nat :=
  if 48 ≤ b ∧ b ≤ 57 then b - 48
  else if 97 ≤ b ∧ b ≤ 102 then b - 87
  else b - 55

/-- `Buffer.from(hexDigits, "hex")`: one byte per digit pair; an odd trailing
digit is dropped, as Node decodes only complete pairs. -/
def bytesOfHex : List Nat → List Nat
  | a :: b :: t => (hexVal a * 16 + hexVal b) :: bytesOfHex t
  | _ => []

/-- The arrow `={1,2}>` of both line grammars: one or two `=` then `>`.  The
quantifier needs no backtracking beyond trying two `=` before one. -/
def matchArrow : List Nat → Option (List Nat)
  | 61 :: 61 :: 62 :: r => some r
  | 61 :: 62 :: r => some r
  | _ => none

/-- KV_RE tried at one position: `0x` hex+ `\s*` arrow `\s*` `0x` hex+.
A shortened greedy run would leave a hex digit where `\s`, `=` or the end of
the hex class is required, so the greedy scan below is exact. -/
def parseKVFrom (l : List Nat) : Option (List Nat × List Nat) :=
  match l with
  | 48 :: 120 :: r =>
    if (r.takeWhile isHexB).isEmpty then none
    else
      match matchArrow ((r.dropWhile isHexB).dropWhile isWsB) with
      | none => none
      | some r2 =>
        match r2.dropWhile isWsB with
        | 48 :: 120 :: r3 =>
          if (r3.takeWhile isHexB).isEmpty then none
          else some (r.takeWhile isHexB, r3.takeWhile isHexB)
        | _ => none
  | _ => none

/-- Leftmost KV_RE match in a line (JS `line.match(KV_RE)` without `/g`). -/
def findKV : List Nat → Option (List Nat × List Nat)
  | [] => none
  | c :: t =>
    match parseKVFrom (c :: t) with
    | some r => some r
    | none => findKV t

/-- JS `parseLdb(stdout)`: per line, the first `0xKEY (=|==)> 0xVALUE` match
hex-decoded; non-matching lines are skipped. -/
def parseLdb (out : List Nat) : List RawPair :=
  (splitLines out).foldr (fun line acc =>
    match findKV line with
    | some (h1, h2) => ⟨bytesOfHex h1, bytesOfHex h2⟩ :: acc
    | none => acc) []

/-- A non-empty run of `p`-code-units, returning the remainder (the `X+` of
the sst_dump grammar). -/
def eatRun1 (p : Nat → Bool) (l : List Nat) : Option (List Nat) :=
  if (l.takeWhile p).isEmpty then none else some (l.dropWhile p)

/-- One line against the anchored sst_dump grammar
`^0x(hex+)\s+@\s+\d+:\s+\d+\s+(=|==)>\s+0x(hex+)$`; every greedy run is
followed by a class it cannot contain, so the scan is deterministic. -/
def parseSstLine (l : List Nat) : Option RawPair :=
  match l with
  | 48 :: 120 :: r =>
    if (r.takeWhile isHexB).isEmpty then none
    else
      match eatRun1 isWsB (r.dropWhile isHexB) with
      | none => none
      | some r1 =>
        match r1 with
        | 64 :: r2 =>
          match eatRun1 isWsB r2 with
          | none => none
          | some r3 =>
            match eatRun1 isDigitB r3 with
            | none => none
            | some r4 =>
              match r4 with
              | 58 :: r5 =>
                match eatRun1 isWsB r5 with
                | none => none
                | some r6 =>
                  match eatRun1 isDigitB r6 with
                  | none => none
                  | some r7 =>
                    match eatRun1 isWsB r7 with
                    | none => none
                    | some r8 =>
                      match matchArrow r8 with
                      | none => none
                      | some r9 =>
                        match eatRun1 isWsB r9 with
                        | none => none
                        | some r10 =>
                          match r10 with
                          | 48 :: 120 :: r11 =>
                            if (r11.takeWhile isHexB).isEmpty then none
                            else if (r11.dropWhile isHexB).isEmpty then
                              some ⟨bytesOfHex (r.takeWhile isHexB),
                                bytesOfHex (r11.takeWhile isHexB)⟩
                            else none
                          | _ => none
              | _ => none
        | _ => none
  | _ => none

/-- JS `parseSst(stdout)` (= `parseSstDump`). -/
def parseSst (out : List Nat) : List RawPair :=
  (splitLines out).foldr (fun line acc =>
    match parseSstLine line with
    | some pr => pr :: acc
    | none => acc) []

/-- Outcome of one subprocess call (`run` / `spawnCapture`): stdout for exit
code 0, an error message for spawn error, non-zero exit or timeout. -/
abbrev CallOut := Except (List Nat) (List Nat)

/-- The calls the extraction chain can attempt, in the order it makes them. -/
inductive ScanStep
  | ldbPlain
  | ldbHexMode
  | sstScan
deriving DecidableEq, Repr

/-- The sst_dump step of `dump`: its (possibly empty) parsed output is
returned as-is; its failure is NOT caught and propagates as an error. -/
def dumpStep3 (o3 : CallOut) : List ScanStep × Except (List Nat) (List RawPair) :=
  ([.sstScan],
    match o3 with
    | .ok s3 => .ok (parseSst s3)
    | .error e => .error e)

/-- The second (hex-key) ldb attempt of `dump`, with its sst_dump fallback:
advance when the call fails or parses zero lines. -/
def dumpStep2 (o2 o3 : CallOut) : List ScanStep × Except (List Nat) (List RawPair) :=
  match o2 with
  | .ok s2 =>
    if (parseLdb s2).isEmpty then
      (.ldbHexMode :: (dumpStep3 o3).1, (dumpStep3 o3).2)
    else ([.ldbHexMode], .ok (parseLdb s2))
  | .error _ => (.ldbHexMode :: (dumpStep3 o3).1, (dumpStep3 o3).2)

/-- JS `dump` (the contractKeyHex server variant) as a function of the three
possible subprocess outcomes: the attempted calls in order, and the result.
The temporary secondary directory is created once at entry (see
`dumpFsEvents`). -/
def dump (o1 o2 o3 : CallOut) : List ScanStep × Except (List Nat) (List RawPair) :=
  match o1 with
  | .ok s1 =>
    if (parseLdb s1).isEmpty then
      (.ldbPlain :: (dumpStep2 o2 o3).1, (dumpStep2 o2 o3).2)
    else ([.ldbPlain], .ok (parseLdb s1))
  | .error _ => (.ldbPlain :: (dumpStep2 o2 o3).1, (dumpStep2 o2 o3).2)

/-- Filesystem events on the temporary secondary directory. -/
inductive FsEvent
  | mkTempDir
  | rmTempDir
deriving DecidableEq, Repr

/-- The directory events of JS `dump`: one `fs.mkdtempSync` at entry and —
whatever the three call outcomes — no removal: the function body contains no
`rmSync` (or any other delete) on any path, so the trace is constant. -/
def dumpFsEvents (_o1 _o2 _o3 : CallOut) : List FsEvent := [.mkTempDir]

/-- The directory events and outcome of JS `runLdbScan` (the `dumpAlkane`
variant): `mkdtempSync`, the scan call, and a `finally` block whose `rmSync`
runs on success, failure and timeout alike; the outcome passes through. -/
def runLdbScan (outcome : CallOut) : List FsEvent × CallOut :=
  ([.mkTempDir, .rmTempDir], outcome)

/-- One entry of the `records` array built by `groupResults` (the
`dumpAlkane` variant has no `contractKeyHex` field; its `rawKey.hex` is the
lowercased hex of the parsed key bytes). -/
structure GRecord where
  key : List Nat
  rawAscii : List Nat
  rawHex : List Nat
  value : DecodedValue
  valueHex : List Nat
deriving DecidableEq, Repr

/-- The result object of JS `groupResults`. -/
structure GroupResult where
  count : Nat
  records : List GRecord
  bySuffix : List (List Nat × List DecodedValue)
  latestBySuffix : List (List Nat × DecodedValue)
deriving DecidableEq, Repr

/-- The record object `groupResults` pushes for one pair. -/
def mkGRecord (r : RawPair) : GRecord :=
  { key := normalizeSuffix r.kbuf, rawAscii := pretty r.kbuf,
    rawHex := toHexStr r.kbuf, value := decodeVal r.vbuf,
    valueHex := toHexStr r.vbuf }

/-- The loop state of `groupResults`. -/
structure GState where
  recs : List GRecord
  byS : List (List Nat × List DecodedValue)
  latest : List (List Nat × DecodedValue)

/-- One iteration of the `groupResults` loop (same grouping logic as
`aggStep`). -/
def groupStep (st : GState) (r : RawPair) : GState :=
  let suffix := normalizeSuffix r.kbuf
  let val := decodeVal r.vbuf
  { recs := st.recs ++ [mkGRecord r]
    byS := pushA st.byS suffix val
    latest :=
      if hasBlock val then
        match lookupA st.latest suffix with
        | none => setA st.latest suffix val
        | some c => if blockOf val > blockOf c then setA st.latest suffix val
                    else st.latest
      else st.latest }

/-- JS `groupResults(recs)`. -/
def groupResults (rs : List RawPair) : GroupResult :=
  let st := rs.foldl groupStep ⟨[], [], []⟩
  { count := st.recs.length, records := st.recs,
    bySuffix := st.byS, latestBySuffix := st.latest }

/-- The sst_dump step of JS `dumpAlkane`: inside try/catch — failure yields
the EMPTY grouped result, not an error. -/
def dumpAlkane3 (o3 : CallOut) : Except (List Nat) GroupResult :=
  match o3 with
  | .ok s3 => .ok (groupResults (parseSst s3))
  | .error _ => .ok ⟨0, [], [], []⟩

/-- The second ldb attempt of JS `dumpAlkane`, with its fallback. -/
def dumpAlkane2 (o2 o3 : CallOut) : Except (List Nat) GroupResult :=
  match o2 with
  | .ok s2 =>
    if (parseLdb s2).isEmpty then dumpAlkane3 o3
    else .ok (groupResults (parseLdb s2))
  | .error _ => dumpAlkane3 o3

/-- JS `dumpAlkane` (first server variant): the same fallback chain as
`dump`, but the sst_dump step is wrapped in try/catch returning an empty
result on failure. -/
def dumpAlkane (o1 o2 o3 : CallOut) : Except (List Nat) GroupResult :=
  match o1 with
  | .ok s1 =>
    if (parseLdb s1).isEmpty then dumpAlkane2 o2 o3
    else .ok (groupResults (parseLdb s1))
  | .error _ => dumpAlkane2 o2 o3

/-- Whether a call outcome yields at least one parsed ldb record (the
early-exit condition of the first two steps). -/
def okNonempty (o : CallOut) : Bool :=
  match o with
  | .ok s => !(parseLdb s).isEmpty
  | .error _ => false

/-- A concrete subprocess error message. -/
def errMsgX : List Nat := asciiOf ("boom")

/-- C2 as amended: in the `dump` pipeline the plain ldb scan is attempted
first; the hex-key scan is attempted iff the first call fails or parses zero
records; the sst_dump scan is attempted iff both do; and then its (possibly
empty) parsed output is returned as-is while its execution failure
propagates as an error.  (The `dumpAlkane` variant instead swallows that
failure; see the counterexample.) -/
theorem c2_dump_fallback (o1 o2 o3 : CallOut) :
    (dump o1 o2 o3).1.head? = some ScanStep.ldbPlain ∧
    (ScanStep.ldbHexMode ∈ (dump o1 o2 o3).1 ↔ okNonempty o1 = false) ∧
    (ScanStep.sstScan ∈ (dump o1 o2 o3).1 ↔
      (okNonempty o1 = false ∧ okNonempty o2 = false)) ∧
    (okNonempty o1 = false → okNonempty o2 = false →
      (dump o1 o2 o3).2 =
        match o3 with
        | .ok s3 => .ok (parseSst s3)
        | .error e => .error e) := by
  cases o1 with
  | ok s1 =>
    by_cases h1 : (parseLdb s1).isEmpty
    · cases o2 with
      | ok s2 =>
        by_cases h2 : (parseLdb s2).isEmpty
        · cases o3 <;>
            simp [dump, dumpStep2, dumpStep3, okNonempty, h1, h2]
        · cases o3 <;>
            simp [dump, dumpStep2, dumpStep3, okNonempty, h1, h2]
      | error e2 =>
        cases o3 <;> simp [dump, dumpStep2, dumpStep3, okNonempty, h1]
    · simp [dump, okNonempty, h1]
  | error e1 =>
    cases o2 with
    | ok s2 =>
      by_cases h2 : (parseLdb s2).isEmpty
      · cases o3 <;> simp [dump, dumpStep2, dumpStep3, okNonempty, h2]
      · cases o3 <;> simp [dump, dumpStep2, dumpStep3, okNonempty, h2]
    | error e2 =>
      cases o3 <;> simp [dump, dumpStep2, dumpStep3, okNonempty]

theorem c2_dump_fallback_witness :
    (dump (.error errMsgX) (.error errMsgX) (.error errMsgX)).1.head? =
        some ScanStep.ldbPlain ∧
    (dump (.error errMsgX) (.error errMsgX) (.error errMsgX)).2 =
      .error errMsgX :=
  ⟨(c2_dump_fallback (.error errMsgX) (.error errMsgX) (.error errMsgX)).1,
    (c2_dump_fallback (.error errMsgX) (.error errMsgX) (.error errMsgX)).2.2.2
      rfl rfl⟩

/-- C2 is refuted on the `dumpAlkane` pipeline: when the sst_dump step fails
to execute, the failure is swallowed and the empty record set is returned —
not an error, contradicting the claim for that variant. -/
theorem c2_counterexample_dumpAlkane :
    dumpAlkane (.error errMsgX) (.error errMsgX) (.error errMsgX) =
      .ok ⟨0, [], [], []⟩ := rfl

/-- C5 is refuted on the `dump` variant (code bug): `dump` performs the
`mkdtempSync` but no removal whatever the outcomes of the three calls, while
`runLdbScan` of the `dumpAlkane` variant removes the directory
unconditionally after the call and passes the outcome through. -/
theorem c5_dump_never_removes_tempdir :
    (∀ o1 o2 o3 : CallOut, FsEvent.mkTempDir ∈ dumpFsEvents o1 o2 o3 ∧
      FsEvent.rmTempDir ∉ dumpFsEvents o1 o2 o3) ∧
    (∀ o : CallOut, (runLdbScan o).1 = [FsEvent.mkTempDir, FsEvent.rmTempDir] ∧
      (runLdbScan o).2 = o) := by
  constructor
  · intro o1 o2 o3
    constructor
    · simp [dumpFsEvents]
    · simp [dumpFsEvents]
  · intro o
    exact ⟨rfl, rfl⟩
